import Mathlib

/-!
# Verification of pigar's CLI and index-resolution behavior

Shallow embedding of `src/pigar/__main__.py` (command resolution, the
interactive disambiguation prompt, the requirements-file write path) and,
for the components whose code lives outside the provided sources
(IndexStore, Synchronizer, VersionComparator, resolution memoization),
models written from the specification's own words.
-/

namespace Pigar

/-! ## CLI command resolution (`AliasedGroup.get_command`) -/

/-- Python `str.startswith`, modelled as character-list prefix. -/
def pyStartsWith (s pre : String) : Bool :=
  pre.data.isPrefixOf s.data

/-- Outcome of `AliasedGroup.get_command`: a command is returned, nothing is
returned (`None`), or the invocation fails via `ctx.fail` with the ambiguous
matches. -/
inductive CommandResolution : Type
  | found (name : String)
  | notFound
  | ambiguous (ms : List String)
  deriving DecidableEq, Repr

/-- Embedding of `AliasedGroup.get_command` (src/pigar/__main__.py:28-42),
with commands represented by their registered names: first an exact lookup
(`click.Group.get_command`), then the list of registered names having the
given name as a prefix; empty → `None`, singleton → that command, otherwise
`ctx.fail`. -/
def get_command (registered : List String) (cmd_name : String) : CommandResolution :=
  if cmd_name ∈ registered then .found cmd_name
  else
    match registered.filter (fun x => pyStartsWith x cmd_name) with
    | [] => .notFound
    | [x] => .found x
    | ms => .ambiguous ms

/-! ## `indexdb sync` default concurrency -/

/-- Default of the `-c` (`--concurrency`) option of `indexdb sync`
(src/pigar/__main__.py:410): `multiprocessing.cpu_count() * 2 + 1`. -/
def indexdb_sync_default_concurrency (cpu_count : Nat) : Nat :=
  cpu_count * 2 + 1

/-- Concurrency actually used by `indexdb_sync` (src/pigar/__main__.py:415-420):
the supplied option value when given, the click default otherwise. -/
def indexdb_sync_concurrency (cpu_count : Nat) (supplied : Option Nat) : Nat :=
  match supplied with
  | some c => c
  | none => indexdb_sync_default_concurrency cpu_count

/-! ## The interactive disambiguation prompt (`_click_prompt_choose_multiple_or_all`) -/

/-- Python whitespace stripped by `str.strip()`. -/
def isPySpace (c : Char) : Bool :=
  c = ' ' || c = '\t' || c = '\n' || c = '\r' || c = '\x0b' || c = '\x0c'

/-- Python `str.strip()`: drop leading and trailing whitespace. -/
def pyStrip (s : String) : String :=
  ⟨((s.data.dropWhile isPySpace).reverse.dropWhile isPySpace).reverse⟩

/-- Split a character list on a separator character, Python `str.split(sep)`
style: every occurrence separates, empty pieces are kept. -/
def splitOnChar (sep : Char) : List Char → List (List Char)
  | [] => [[]]
  | c :: rest =>
      match splitOnChar sep rest with
      | [] => if c = sep then [[], []] else [[c]]
      | seg :: segs => if c = sep then [] :: seg :: segs else (c :: seg) :: segs

/-- Python `input.split(',')`. -/
def pySplitComma (s : String) : List String :=
  (splitOnChar ',' s.data).map (fun l => ⟨l⟩)

/-- Outcome of one call to the prompt's `value_proc`: a normal answer, a
`click.BadParameter` rejection, or an uncaught `AttributeError`. -/
inductive PromptOutcome : Type
  | answered (chosen : List String)
  | badParameter (msg : String)
  | attributeError (typeName attr : String)
  deriving DecidableEq, Repr

/-- Python attribute lookup on a `str` object for the zero-argument
`str → str` methods relevant to `_value_proc`: `strip` is such an attribute
of `str`; `sttrip` — the name the source actually calls — is not, and the
failed lookup raises `AttributeError`. -/
def strZeroArgMethod (attr : String) (s : String) : Option String :=
  if attr = "strip" then some (pyStrip s) else none

/-- Embedding of `_value_proc` built by `_click_prompt_choose_multiple_or_all`
(src/pigar/__main__.py:45-58). Its first statement is
`input = input.sttrip()`; the attribute lookup of `sttrip` on `str` fails, so
every invocation raises `AttributeError` before the empty-input check, the
comma splitting and the membership validation below are ever reached. -/
def value_proc (choices : List String) (input : String) : PromptOutcome :=
  match strZeroArgMethod "sttrip" input with
  | none => .attributeError "str" "sttrip"
  | some stripped =>
      if stripped = "" then .answered choices
      else
        let vs := (pySplitComma stripped).map pyStrip
        match vs.find? (fun v => ¬ choices.contains v) with
        | some v => .badParameter ("choice \"" ++ v ++ "\" not found")
        | none => .answered vs

/-! ## The write path of `generate` (filesystem model) -/

/-- Filesystem state: every path maps to the content of the file there, or
`none` when no file exists at the path. -/
def FS : Type := String → Option String

/-- An atomic filesystem operation performed by the write path of `generate`:
`open(p, 'w+')` (create/truncate), one buffered write, `os.rename`, and the
`finally` clause's `os.remove` with `FileNotFoundError` suppressed. -/
inductive FSOp : Type
  | openTruncate (path : String)
  | writeChunk (path : String) (chunk : String)
  | rename (src dst : String)
  | removeIfExists (path : String)

/-- Effect of one operation on the filesystem. -/
def applyOp (fs : FS) : FSOp → FS
  | .openTruncate p => fun q => if q = p then some "" else fs q
  | .writeChunk p c => fun q => if q = p then some ((fs p).getD "" ++ c) else fs q
  | .rename src dst => fun q => if q = dst then fs src else if q = src then none else fs q
  | .removeIfExists p => fun q => if q = p then none else fs q

/-- Effect of a sequence of operations, first operation first. -/
def applyOps (fs : FS) (ops : List FSOp) : FS :=
  ops.foldl applyOp fs

/-- Concatenation of the written chunks. -/
def joinChunks : List String → String
  | [] => ""
  | c :: cs => c ++ joinChunks cs

/-- `tmp_requirement_file = requirement_file + ".tmp"`
(src/pigar/__main__.py:252). -/
def tmpPath (file : String) : String := file ++ ".tmp"

/-- The operations of the `with open(tmp_requirement_file, 'w+') as f:` block
(src/pigar/__main__.py:254-261): create/truncate the temporary file, then
write the generated requirements content to it chunk by chunk. -/
def writeBodySteps (file : String) (chunks : List String) : List FSOp :=
  .openTruncate (tmpPath file) :: chunks.map (FSOp.writeChunk (tmpPath file))

/-- The complete write path of `generate` when `dry_run` is not set
(src/pigar/__main__.py:252-267): write the temporary file, rename it over
the requirements file, then the `finally` clause removes the temporary file
if it still exists. -/
def generateWriteSteps (file : String) (chunks : List String) : List FSOp :=
  writeBodySteps file chunks ++
    [.rename (tmpPath file) file, .removeIfExists (tmpPath file)]

/-- The operations executed when the write path is interrupted by an
exception after `k` of the steps inside the `try` block (all before the
rename): the remaining writes and the rename are skipped, and the `finally`
clause still removes the temporary file. -/
def generateInterrupted (file : String) (chunks : List String) (k : Nat) : List FSOp :=
  (writeBodySteps file chunks).take k ++ [.removeIfExists (tmpPath file)]

/-- Result of running the tail of `generate` (src/pigar/__main__.py:230-267):
the final filesystem plus the content printed from the in-memory buffer in
dry-run mode. -/
structure GenerateEffect : Type where
  fs : FS
  printed : Option String

/-- Embedding of the output phase of `generate`: with `--dry-run` the
requirements content is written to an `io.StringIO` buffer, printed, and the
function returns before any file operation (src/pigar/__main__.py:230-242);
otherwise the temporary-file write path runs (src/pigar/__main__.py:252-267). -/
def runGenerate (dry_run : Bool) (fs : FS) (file : String) (chunks : List String) :
    GenerateEffect :=
  if dry_run then
    { fs := fs, printed := some (joinChunks chunks) }
  else
    { fs := applyOps fs (generateWriteSteps file chunks), printed := none }

/-! ## IndexStore (modelled from the spec) -/

/-- Modelled from the spec: a `DistributionRecord` per §3 —
`{name, versions, provided_names}`; the implementation (pigar's core and
index-database modules) is not among the provided sources. The `last_synced`
timestamp is omitted because the spec does not specify how merges combine it;
`versions` is a set (the spec's order is derivable from the version ordering). -/
structure DistributionRecord : Type where
  name : String
  versions : Finset String
  provided_names : Finset String
  deriving DecidableEq

/-- Modelled from the spec: the two-index `IndexStore` per §3 —
`imports : ImportName → set of distribution names` and
`dists : DistributionName → DistributionRecord`. -/
structure IndexStore : Type where
  imports : String → Finset String
  dists : String → Option DistributionRecord

/-- The store a caller proceeds with before any sync. -/
def emptyStore : IndexStore :=
  { imports := fun _ => ∅, dists := fun _ => none }

/-- Modelled from the spec (§4.1): upserting one record "unions `versions`
and `provided_names` with any existing record of the same name rather than
overwriting". -/
def combine (old : Option DistributionRecord) (r : DistributionRecord) :
    DistributionRecord :=
  match old with
  | none => { name := r.name, versions := r.versions, provided_names := r.provided_names }
  | some o =>
      { name := r.name, versions := o.versions ∪ r.versions,
        provided_names := o.provided_names ∪ r.provided_names }

/-- Modelled from the spec: upsert one record, updating both indices so the
record's name is reachable under every import name it provides (§3's
referential integrity is "maintained atomically on every commit"). -/
def upsert (S : IndexStore) (r : DistributionRecord) : IndexStore :=
  let merged := combine (S.dists r.name) r
  { dists := fun n => if n = r.name then some merged else S.dists n,
    imports := fun k =>
      if k ∈ merged.provided_names then insert r.name (S.imports k) else S.imports k }

/-- Modelled from the spec (§4.1): `merge(batch)` upserts the records of the
batch in order. -/
def mergeBatch (S : IndexStore) (batch : List DistributionRecord) : IndexStore :=
  batch.foldl upsert S

/-- Provided names of an optional record (`∅` when absent). -/
def providedOf : Option DistributionRecord → Finset String
  | none => ∅
  | some r => r.provided_names

/-- Versions of an optional record (`∅` when absent). -/
def versionsOf : Option DistributionRecord → Finset String
  | none => ∅
  | some r => r.versions

/-- Modelled from the spec (§4.1): `lookup(import_name)` returns the set of
distributions recorded for the import name — the first index; the records
themselves are then read off the second index. -/
def lookup (S : IndexStore) (k : String) : Finset String := S.imports k

/-- Modelled from the spec (§6): the durable file serializes the
distribution→record mapping, the import-name index being "derivable from
it"; `load` rebuilds the store by merging the serialized records into an
empty store. -/
def load (records : List DistributionRecord) : IndexStore :=
  mergeBatch emptyStore records

/-- Observational identity of two stores: same lookup results and same
distribution-name→record mapping. -/
def ObsEq (S T : IndexStore) : Prop :=
  (∀ k, lookup S k = lookup T k) ∧ (∀ n, S.dists n = T.dists n)

/-- Referential integrity (§3, §8): every distribution name reachable via
`lookup` maps to a record in the second index whose `provided_names`
contains the key it was reached under. -/
def RefIntegrity (S : IndexStore) : Prop :=
  ∀ k n, n ∈ lookup S k →
    ∃ rec, S.dists n = some rec ∧ k ∈ rec.provided_names

/-- Union of the versions of a list of records. -/
def listVersions : List DistributionRecord → Finset String
  | [] => ∅
  | r :: l => r.versions ∪ listVersions l

/-- Union of the provided names of a list of records. -/
def listProvided : List DistributionRecord → Finset String
  | [] => ∅
  | r :: l => r.provided_names ∪ listProvided l

/-- Canonical result of folding `combine` over the records of one name. -/
def accRec (n : String) (acc : Option DistributionRecord)
    (l : List DistributionRecord) : Option DistributionRecord :=
  match l with
  | [] => acc
  | _ :: _ =>
      some { name := n, versions := versionsOf acc ∪ listVersions l,
             provided_names := providedOf acc ∪ listProvided l }

/-! ## Per-run memoized disambiguation (modelled from the spec) -/

/-- Modelled from the spec (§4.4): the per-run resolution state of the
ResolutionEngine, whose code is not among the provided sources — the memo
table of disambiguation answers (most recent first) and the log of import
names for which the callback was actually invoked. -/
structure RunState : Type where
  memo : List (String × List String)
  callbackLog : List String

/-- The state at the start of an analysis run: nothing asked yet. -/
def initState : RunState := { memo := [], callbackLog := [] }

/-- Modelled from the spec (§4.4): resolving one ambiguous import name —
"Memoize the callback's answer for the remainder of the run so the same import
name is never asked twice": reuse the memoized answer when present,
otherwise invoke the callback, record its invocation and memoize. -/
def resolveOne (cb : String → List String) (st : RunState) (name : String) : RunState :=
  match st.memo.lookup name with
  | some _ => st
  | none =>
      { memo := (name, cb name) :: st.memo,
        callbackLog := name :: st.callbackLog }

/-- A sequence of ambiguous-name queries within one run (one code path). -/
def runQueries (cb : String → List String) (st : RunState) (names : List String) :
    RunState :=
  names.foldl (resolveOne cb) st

/-- Run-state invariant: no name was asked twice, and every asked name is
memoized. -/
def MemoInv (st : RunState) : Prop :=
  st.callbackLog.Nodup ∧ ∀ n ∈ st.callbackLog, (st.memo.lookup n).isSome

/-! ## VersionComparator (modelled from the spec) -/

/-- Modelled from the spec (§4.5): a version segment "parses as numeric"
when it is a nonempty run of digits. The VersionComparator's code is not
among the provided sources. -/
def isNumericSeg (s : List Char) : Bool :=
  !s.isEmpty && s.all (fun c => c.isDigit)

/-- Numeric value of a digit segment. -/
def parseNatSeg (s : List Char) : Nat :=
  s.foldl (fun n c => n * 10 + (c.toNat - 48)) 0

/-- Lexical comparison of two character lists. -/
def cmpLexChars : List Char → List Char → Ordering
  | [], [] => .eq
  | [], _ :: _ => .lt
  | _ :: _, [] => .gt
  | a :: as, b :: bs =>
      match compare a.toNat b.toNat with
      | .eq => cmpLexChars as bs
      | o => o

/-- Modelled from the spec (§4.5): a component that parses as numeric
compares numerically, otherwise lexically. -/
def segCmp (a b : List Char) : Ordering :=
  if isNumericSeg a && isNumericSeg b then compare (parseNatSeg a) (parseNatSeg b)
  else cmpLexChars a b

/-- Component-wise comparison of segment lists, shorter list first. -/
def cmpSegs : List (List Char) → List (List Char) → Ordering
  | [], [] => .eq
  | [], _ :: _ => .lt
  | _ :: _, [] => .gt
  | a :: as, b :: bs =>
      match segCmp a b with
      | .eq => cmpSegs as bs
      | o => o

/-- Modelled from the spec (§4.5): the version ordering — dot-separated
segments compared component-wise. -/
def versionCmp (a b : String) : Ordering :=
  cmpSegs (splitOnChar '.' a.data) (splitOnChar '.' b.data)

/-- Modelled from the spec (§4.2, §6): a version is a pre-release or
development version when some dot-separated component is not numeric. -/
def isPrerelease (v : String) : Bool :=
  (splitOnChar '.' v.data).any (fun s => !isNumericSeg s)

/-- Modelled from the spec (§4.3, §4.5): the latest version under the
prerelease policy — `include_prereleases = false` selects the newest
non-prerelease by the version ordering, `true` the newest of any kind. -/
def latestVersion (include_prereleases : Bool) (versions : List String) : Option String :=
  let vs := if include_prereleases then versions
            else versions.filter (fun v => !isPrerelease v)
  vs.foldl (fun acc v =>
    match acc with
    | none => some v
    | some m => if versionCmp m v = .lt then some v else some m) none

/-- Modelled from the spec (§4.5): the VersionComparator's output row
`{distribution, spec, local, latest}` for one requirement entry. -/
def checkRow (distribution specifier local_version : String)
    (include_prereleases : Bool) (versions : List String) :
    String × String × String × Option String :=
  (distribution, specifier, local_version, latestVersion include_prereleases versions)

end Pigar

namespace Pigar

/-! ## Theorems -/

/-- A path is never equal to its own temporary-file path. -/
theorem ne_tmpPath (file : String) : file ≠ tmpPath file := by
  intro h
  have hlen : file.length = (tmpPath file).length := congrArg String.length h
  rw [tmpPath, String.length_append] at hlen
  have h4 : (".tmp" : String).length = 4 := rfl
  omega

/-- Unfolding of `applyOps` on a cons. -/
theorem applyOps_cons (fs : FS) (op : FSOp) (ops : List FSOp) :
    applyOps fs (op :: ops) = applyOps (applyOp fs op) ops := rfl

/-- A sequence of writes to one path leaves every other path unchanged. -/
theorem applyOps_writes_other (p : String) (chunks : List String)
    (fs : FS) (q : String) (hq : q ≠ p) :
    applyOps fs (chunks.map (FSOp.writeChunk p)) q = fs q := by
  induction chunks generalizing fs with
  | nil => rfl
  | cons c cs ih =>
      rw [List.map_cons, applyOps_cons, ih]
      simp [applyOp, hq]

/-- A sequence of writes to a path appends the chunks to its content. -/
theorem applyOps_writes_content (p : String) (chunks : List String)
    (fs : FS) (s : String) (hs : fs p = some s) :
    applyOps fs (chunks.map (FSOp.writeChunk p)) p = some (s ++ joinChunks chunks) := by
  induction chunks generalizing fs s with
  | nil => simpa [joinChunks] using hs
  | cons c cs ih =>
      rw [List.map_cons, applyOps_cons]
      rw [ih (applyOp fs (.writeChunk p c)) (s ++ c) (by simp [applyOp, hs])]
      simp [joinChunks, String.append_assoc]

/-- Unfolding of `applyOps` on an append. -/
theorem applyOps_append (fs : FS) (l1 l2 : List FSOp) :
    applyOps fs (l1 ++ l2) = applyOps (applyOps fs l1) l2 :=
  List.foldl_append _ _ _ _

/-- The `try` block touches only the temporary path. -/
theorem writeBody_other (file : String) (chunks : List String) (fs : FS)
    (q : String) (hq : q ≠ tmpPath file) :
    applyOps fs (writeBodySteps file chunks) q = fs q := by
  rw [writeBodySteps, applyOps_cons, applyOps_writes_other _ _ _ _ hq]
  simp [applyOp, hq]

/-- After the `try` block the temporary file holds the whole new content. -/
theorem writeBody_tmp (file : String) (chunks : List String) (fs : FS) :
    applyOps fs (writeBodySteps file chunks) (tmpPath file) = some (joinChunks chunks) := by
  rw [writeBodySteps, applyOps_cons,
    applyOps_writes_content (tmpPath file) chunks _ "" (by simp [applyOp])]
  simp

/-- Any prefix of the `try` block touches only the temporary path. -/
theorem writeBody_take_other (file : String) (chunks : List String) (fs : FS)
    (q : String) (k : Nat) (hq : q ≠ tmpPath file) :
    applyOps fs ((writeBodySteps file chunks).take k) q = fs q := by
  cases k with
  | zero => rfl
  | succ k =>
      rw [writeBodySteps, List.take_succ_cons, applyOps_cons, ← List.map_take,
        applyOps_writes_other _ _ _ _ hq]
      simp [applyOp, hq]

/-- C2: the write path of `generate` is atomic. On completion the
requirements file holds exactly the new content and the temporary file is
gone; an interruption after any number of steps of the `try` block leaves the
requirements file with its pre-call content and removes the temporary file;
and after every prefix of the write path the requirements file holds either
its complete pre-call content or the complete new content, never a mixture. -/
theorem generate_write_path_atomic (fs : FS) (file : String) (chunks : List String) :
    ((runGenerate false fs file chunks).fs file = some (joinChunks chunks) ∧
      (runGenerate false fs file chunks).fs (tmpPath file) = none) ∧
    (∀ k, applyOps fs (generateInterrupted file chunks k) file = fs file ∧
      applyOps fs (generateInterrupted file chunks k) (tmpPath file) = none) ∧
    (∀ k, applyOps fs ((generateWriteSteps file chunks).take k) file = fs file ∨
      applyOps fs ((generateWriteSteps file chunks).take k) file =
        some (joinChunks chunks)) := by
  have hne := ne_tmpPath file
  refine ⟨?_, ?_, ?_⟩
  · have hbody := writeBody_tmp file chunks fs
    constructor
    · show applyOps fs (generateWriteSteps file chunks) file = _
      rw [generateWriteSteps, applyOps_append]
      set fs1 := applyOps fs (writeBodySteps file chunks) with hfs1
      simp [applyOps, applyOp, hne, hbody]
    · show applyOps fs (generateWriteSteps file chunks) (tmpPath file) = none
      rw [generateWriteSteps, applyOps_append]
      set fs1 := applyOps fs (writeBodySteps file chunks) with hfs1
      simp [applyOps, applyOp, hne]
  · intro k
    constructor
    · rw [generateInterrupted, applyOps_append]
      have hk := writeBody_take_other file chunks fs file k hne
      set fs1 := applyOps fs ((writeBodySteps file chunks).take k) with hfs1
      simp [applyOps, applyOp, hne, hk]
    · rw [generateInterrupted, applyOps_append]
      set fs1 := applyOps fs ((writeBodySteps file chunks).take k) with hfs1
      simp [applyOps, applyOp]
  · intro k
    rw [generateWriteSteps, List.take_append_eq_append_take]
    by_cases hk : k ≤ (writeBodySteps file chunks).length
    · left
      have h0 : k - (writeBodySteps file chunks).length = 0 := by omega
      rw [h0]
      simpa using writeBody_take_other file chunks fs file k hne
    · right
      have hfull : (writeBodySteps file chunks).take k = writeBodySteps file chunks :=
        List.take_of_length_le (by omega)
      rw [hfull]
      have hbody := writeBody_tmp file chunks fs
      by_cases hk1 : k - (writeBodySteps file chunks).length = 1
      · rw [hk1, applyOps_append]
        set fs1 := applyOps fs (writeBodySteps file chunks) with hfs1
        simp [applyOps, applyOp, hne, hbody]
      · have h2 : ([FSOp.rename (tmpPath file) file,
            FSOp.removeIfExists (tmpPath file)]).take
              (k - (writeBodySteps file chunks).length) =
            [FSOp.rename (tmpPath file) file, FSOp.removeIfExists (tmpPath file)] :=
          List.take_of_length_le (by simp; omega)
        rw [h2, applyOps_append]
        set fs1 := applyOps fs (writeBodySteps file chunks) with hfs1
        simp [applyOps, applyOp, hne, hbody]

/-- C10: with the dry-run flag set, `generate` leaves the filesystem — in
particular the requirements file — exactly as it was, and the generated
content only reaches the printed in-memory buffer. -/
theorem generate_dry_run_frame (fs : FS) (file : String) (chunks : List String) :
    (runGenerate true fs file chunks).fs = fs ∧
    (runGenerate true fs file chunks).fs file = fs file ∧
    (runGenerate true fs file chunks).printed = some (joinChunks chunks) :=
  ⟨rfl, rfl, rfl⟩

/-- Unfolding of `mergeBatch` on a cons. -/
theorem mergeBatch_cons (S : IndexStore) (r : DistributionRecord)
    (L : List DistributionRecord) :
    mergeBatch S (r :: L) = mergeBatch (upsert S r) L := rfl

/-- Merging an appended batch merges the two halves in order. -/
theorem mergeBatch_append (S : IndexStore) (A B : List DistributionRecord) :
    mergeBatch S (A ++ B) = mergeBatch (mergeBatch S A) B :=
  List.foldl_append _ _ _ _

/-- The distribution index after one upsert. -/
theorem upsert_dists (S : IndexStore) (r : DistributionRecord) (n : String) :
    (upsert S r).dists n =
      if n = r.name then some (combine (S.dists r.name) r) else S.dists n := rfl

/-- The import index after one upsert. -/
theorem upsert_imports (S : IndexStore) (r : DistributionRecord) (k : String) :
    (upsert S r).imports k =
      if k ∈ (combine (S.dists r.name) r).provided_names
      then insert r.name (S.imports k) else S.imports k := rfl

/-- Versions of a combined record. -/
theorem versionsOf_combine (acc : Option DistributionRecord) (r : DistributionRecord) :
    versionsOf (some (combine acc r)) = versionsOf acc ∪ r.versions := by
  cases acc <;> simp [combine, versionsOf]

/-- Provided names of a combined record. -/
theorem providedOf_combine (acc : Option DistributionRecord) (r : DistributionRecord) :
    providedOf (some (combine acc r)) = providedOf acc ∪ r.provided_names := by
  cases acc <;> simp [combine, providedOf]

/-- Canonical form of `accRec` on a nonempty list. -/
theorem accRec_ne_nil (n : String) (acc : Option DistributionRecord)
    (l : List DistributionRecord) (h : l ≠ []) :
    accRec n acc l =
      some { name := n, versions := versionsOf acc ∪ listVersions l,
             provided_names := providedOf acc ∪ listProvided l } := by
  cases l with
  | nil => exact absurd rfl h
  | cons x xs => rfl

/-- Folding one more combined record extends the canonical form. -/
theorem accRec_combine (n : String) (acc : Option DistributionRecord)
    (r : DistributionRecord) (hr : r.name = n) (l : List DistributionRecord) :
    accRec n (some (combine acc r)) l = accRec n acc (r :: l) := by
  cases l with
  | nil =>
      cases acc <;>
        simp [accRec, combine, versionsOf, providedOf, listVersions, listProvided, hr]
  | cons x xs =>
      simp [accRec, versionsOf_combine, providedOf_combine, listVersions, listProvided,
        Finset.union_assoc]

/-- The distribution index of a merged batch, characterized name by name:
the records of that name in the batch are folded into the prior record. -/
theorem mergeBatch_dists_char (L : List DistributionRecord) (S : IndexStore) (n : String) :
    (mergeBatch S L).dists n =
      accRec n (S.dists n) (L.filter (fun r => r.name = n)) := by
  induction L generalizing S with
  | nil => rfl
  | cons r L ih =>
      rw [mergeBatch_cons, ih, upsert_dists]
      by_cases hr : r.name = n
      · subst hr
        rw [if_pos rfl, List.filter_cons_of_pos (by simp)]
        exact accRec_combine _ _ _ rfl _
      · rw [if_neg (fun h => hr h.symm), List.filter_cons_of_neg (by simp [hr])]

/-- One upsert never removes a provided name from the distribution index. -/
theorem providedOf_upsert_mono (S : IndexStore) (r : DistributionRecord) (n k : String)
    (h : k ∈ providedOf (S.dists n)) : k ∈ providedOf ((upsert S r).dists n) := by
  rw [upsert_dists]
  by_cases hn : n = r.name
  · subst hn
    rw [if_pos rfl, providedOf_combine]
    exact Finset.mem_union_left _ h
  · rw [if_neg hn]; exact h

/-- Merging never removes a provided name from the distribution index. -/
theorem providedOf_mergeBatch_mono (L : List DistributionRecord) (S : IndexStore)
    (n k : String) (h : k ∈ providedOf (S.dists n)) :
    k ∈ providedOf ((mergeBatch S L).dists n) := by
  induction L generalizing S with
  | nil => exact h
  | cons r L ih => exact ih _ (providedOf_upsert_mono S r n k h)

/-- A name with no record in the batch keeps its prior distribution entry. -/
theorem mergeBatch_dists_untouched (L : List DistributionRecord) (S : IndexStore)
    (n : String) (h : n ∉ L.map (fun r => r.name)) :
    (mergeBatch S L).dists n = S.dists n := by
  induction L generalizing S with
  | nil => rfl
  | cons r L ih =>
      simp only [List.map_cons, List.mem_cons, not_or] at h
      rw [mergeBatch_cons, ih _ h.2, upsert_dists, if_neg h.1]

/-- The import index of a merged batch, characterized key by key: the prior
entry united with the batch's names whose final record provides the key. -/
theorem mergeBatch_imports_char (L : List DistributionRecord) (S : IndexStore) (k : String) :
    (mergeBatch S L).imports k =
      S.imports k ∪ ((L.map (fun r => r.name)).toFinset.filter
        (fun n => k ∈ providedOf ((mergeBatch S L).dists n))) := by
  induction L generalizing S with
  | nil => simp [mergeBatch]
  | cons r L ih =>
      rw [mergeBatch_cons, ih, upsert_imports]
      simp only [List.map_cons, List.toFinset_cons, Finset.filter_insert]
      by_cases h1 : k ∈ (combine (S.dists r.name) r).provided_names
      · have hp : k ∈ providedOf ((mergeBatch (upsert S r) L).dists r.name) := by
          apply providedOf_mergeBatch_mono
          rw [upsert_dists, if_pos rfl]
          simpa [providedOf] using h1
        rw [if_pos h1, if_pos hp, Finset.insert_union, Finset.union_insert]
      · rw [if_neg h1]
        by_cases hmem : r.name ∈ L.map (fun r => r.name)
        · by_cases hp : k ∈ providedOf ((mergeBatch (upsert S r) L).dists r.name)
          · rw [if_pos hp]
            have hins : r.name ∈ (L.map (fun r => r.name)).toFinset.filter
                (fun n => k ∈ providedOf ((mergeBatch (upsert S r) L).dists n)) :=
              Finset.mem_filter.mpr ⟨List.mem_toFinset.mpr hmem, hp⟩
            rw [Finset.insert_eq_self.mpr hins]
          · rw [if_neg hp]
        · have hd : (mergeBatch (upsert S r) L).dists r.name =
              some (combine (S.dists r.name) r) := by
            rw [mergeBatch_dists_untouched L _ _ hmem, upsert_dists, if_pos rfl]
          rw [if_neg (by rw [hd]; simpa [providedOf] using h1)]

/-- C4: merging the same batch twice yields a store observationally identical
(same lookup results, same distribution-name→record mapping) to merging it
once. -/
theorem merge_idempotent (S : IndexStore) (B : List DistributionRecord) :
    ObsEq (mergeBatch (mergeBatch S B) B) (mergeBatch S B) := by
  have hd : ∀ n, (mergeBatch (mergeBatch S B) B).dists n = (mergeBatch S B).dists n := by
    intro n
    rw [mergeBatch_dists_char, mergeBatch_dists_char]
    cases hf : B.filter (fun r => r.name = n) with
    | nil => rfl
    | cons x xs =>
        rw [accRec_ne_nil _ _ _ (by simp), accRec_ne_nil _ _ _ (by simp)]
        simp [versionsOf, providedOf, Finset.union_assoc, Finset.union_self]
  refine ⟨?_, hd⟩
  intro k
  rw [lookup, lookup, mergeBatch_imports_char B (mergeBatch S B) k,
    mergeBatch_imports_char B S k]
  have hff : ((B.map (fun r => r.name)).toFinset.filter
        (fun n => k ∈ providedOf ((mergeBatch (mergeBatch S B) B).dists n))) =
      ((B.map (fun r => r.name)).toFinset.filter
        (fun n => k ∈ providedOf ((mergeBatch S B).dists n))) :=
    Finset.filter_congr (fun n _ => by rw [hd n])
  rw [hff, Finset.union_assoc, Finset.union_self]

/-- Union of the versions of an appended record list. -/
theorem listVersions_append (l1 l2 : List DistributionRecord) :
    listVersions (l1 ++ l2) = listVersions l1 ∪ listVersions l2 := by
  induction l1 with
  | nil => simp [listVersions]
  | cons x xs ih => simp [listVersions, ih, Finset.union_assoc]

/-- Union of the provided names of an appended record list. -/
theorem listProvided_append (l1 l2 : List DistributionRecord) :
    listProvided (l1 ++ l2) = listProvided l1 ∪ listProvided l2 := by
  induction l1 with
  | nil => simp [listProvided]
  | cons x xs ih => simp [listProvided, ih, Finset.union_assoc]

/-- Folding the records of one name is insensitive to batch order. -/
theorem accRec_append_comm (n : String) (acc : Option DistributionRecord)
    (l1 l2 : List DistributionRecord) :
    accRec n acc (l1 ++ l2) = accRec n acc (l2 ++ l1) := by
  rcases eq_or_ne l1 [] with h1 | h1
  · subst h1; simp
  · rcases eq_or_ne l2 [] with h2 | h2
    · subst h2; simp
    · rw [accRec_ne_nil _ _ _ (by simp [h1]), accRec_ne_nil _ _ _ (by simp [h2]),
        listVersions_append, listVersions_append, listProvided_append, listProvided_append,
        Finset.union_comm (listVersions l1) (listVersions l2),
        Finset.union_comm (listProvided l1) (listProvided l2)]

/-- C5: merging batch `A` then batch `B` yields the same observable store as
merging `B` then `A`: the final state is independent of completion order. -/
theorem merge_commutative (S : IndexStore) (A B : List DistributionRecord) :
    ObsEq (mergeBatch (mergeBatch S A) B) (mergeBatch (mergeBatch S B) A) := by
  rw [← mergeBatch_append, ← mergeBatch_append]
  have hd : ∀ n, (mergeBatch S (A ++ B)).dists n = (mergeBatch S (B ++ A)).dists n := by
    intro n
    rw [mergeBatch_dists_char, mergeBatch_dists_char, List.filter_append, List.filter_append]
    exact accRec_append_comm _ _ _ _
  refine ⟨?_, hd⟩
  intro k
  rw [lookup, lookup, mergeBatch_imports_char, mergeBatch_imports_char]
  have hnames : ((A ++ B).map (fun r => r.name)).toFinset =
      ((B ++ A).map (fun r => r.name)).toFinset := by
    simp [Finset.union_comm]
  rw [show ((A ++ B).map (fun r => r.name)).toFinset.filter
        (fun n => k ∈ providedOf ((mergeBatch S (A ++ B)).dists n)) =
      ((B ++ A).map (fun r => r.name)).toFinset.filter
        (fun n => k ∈ providedOf ((mergeBatch S (B ++ A)).dists n)) from by
    rw [hnames]
    exact Finset.filter_congr (fun n _ => by rw [hd n])]

/-- A key in the provided names of an optional record forces a real record. -/
theorem providedOf_mem_some (o : Option DistributionRecord) (k : String)
    (h : k ∈ providedOf o) : ∃ rec, o = some rec ∧ k ∈ rec.provided_names := by
  cases o with
  | none => simp [providedOf] at h
  | some r => exact ⟨r, rfl, h⟩

/-- Merging preserves referential integrity. -/
theorem RefIntegrity_mergeBatch (S : IndexStore) (L : List DistributionRecord)
    (h : RefIntegrity S) : RefIntegrity (mergeBatch S L) := by
  intro k n hn
  rw [lookup, mergeBatch_imports_char] at hn
  rcases Finset.mem_union.mp hn with hs | hf
  · rcases h k n hs with ⟨rec, hrec, hk⟩
    exact providedOf_mem_some _ _
      (providedOf_mergeBatch_mono L S n k (by simp [providedOf, hrec, hk]))
  · exact providedOf_mem_some _ _ (Finset.mem_filter.mp hf).2

/-- The empty store satisfies referential integrity vacuously. -/
theorem RefIntegrity_empty : RefIntegrity emptyStore := by
  intro k n hn
  simp [lookup, emptyStore] at hn

/-- C6: referential integrity is preserved by every IndexStore operation:
merging any batch into an integral store keeps it integral, and loading any
persisted record list yields an integral store. -/
theorem referential_integrity_preserved (S : IndexStore)
    (L l : List DistributionRecord) (h : RefIntegrity S) :
    RefIntegrity (mergeBatch S L) ∧ RefIntegrity (load l) :=
  ⟨RefIntegrity_mergeBatch S L h, RefIntegrity_mergeBatch emptyStore l RefIntegrity_empty⟩

/-- Witness for C6 at a concrete store and batch. -/
theorem referential_integrity_preserved_witness :
    RefIntegrity (mergeBatch emptyStore
      [{ name := "beautifulsoup4", versions := {"4.12.0"}, provided_names := {"bs4"} }]) ∧
    RefIntegrity (load
      [{ name := "beautifulsoup4", versions := {"4.12.0"}, provided_names := {"bs4"} }]) :=
  referential_integrity_preserved emptyStore
    [{ name := "beautifulsoup4", versions := {"4.12.0"}, provided_names := {"bs4"} }]
    [{ name := "beautifulsoup4", versions := {"4.12.0"}, provided_names := {"bs4"} }]
    RefIntegrity_empty

/-- Resolving one query preserves the memoization invariant. -/
theorem MemoInv_resolveOne (cb : String → List String) (st : RunState) (name : String)
    (h : MemoInv st) : MemoInv (resolveOne cb st name) := by
  rcases h with ⟨hnd, hmem⟩
  unfold resolveOne
  cases hl : st.memo.lookup name with
  | some ans => exact ⟨hnd, hmem⟩
  | none =>
      refine ⟨List.nodup_cons.mpr ⟨?_, hnd⟩, ?_⟩
      · intro hin
        have := hmem name hin
        rw [hl] at this
        simp at this
      · intro n hn
        rcases List.mem_cons.mp hn with h1 | h1
        · subst h1; simp [List.lookup]
        · have := hmem n h1
          by_cases he : n = name
          · subst he; rw [hl] at this; simp at this
          · have hbe : (n == name) = false := beq_eq_false_iff_ne.mpr he
            simpa [List.lookup, hbe] using this

/-- A whole query sequence preserves the memoization invariant. -/
theorem MemoInv_runQueries (cb : String → List String) (names : List String)
    (st : RunState) (h : MemoInv st) : MemoInv (runQueries cb st names) := by
  induction names generalizing st with
  | nil => exact h
  | cons q qs ih => exact ih _ (MemoInv_resolveOne cb st q h)

/-- The initial run state satisfies the memoization invariant. -/
theorem MemoInv_init : MemoInv initState :=
  ⟨List.nodup_nil, fun n hn => absurd hn (List.not_mem_nil n)⟩

/-- C7: within one run, even across two query phases (the local analysis and
the later search of unknown imports), the disambiguation callback is invoked
at most once per distinct ambiguous import name. -/
theorem disambiguation_at_most_once (cb : String → List String)
    (phase1 phase2 : List String) (name : String) :
    ((runQueries cb (runQueries cb initState phase1) phase2).callbackLog.count name)
      ≤ 1 := by
  have h := MemoInv_runQueries cb phase2 _
    (MemoInv_runQueries cb phase1 initState MemoInv_init)
  exact List.nodup_iff_count_le_one.mp h.1 name

/-- C3: against the version set `["2.0.0", "2.1.0", "2.1.0rc1"]`, the
VersionComparator's row for pinned `requests==2.0.0` reports latest `2.1.0`
when prereleases are excluded and `2.1.0rc1` when they are included. -/
theorem check_latest_prerelease_policy :
    checkRow "requests" "==" "2.0.0" false ["2.0.0", "2.1.0", "2.1.0rc1"] =
      ("requests", "==", "2.0.0", some "2.1.0") ∧
    checkRow "requests" "==" "2.0.0" true ["2.0.0", "2.1.0", "2.1.0rc1"] =
      ("requests", "==", "2.0.0", some "2.1.0rc1") := by
  constructor <;> rfl

/-- C8: when no concurrency value is supplied, `indexdb sync` runs with a
worker-pool size of two times the number of CPU cores plus one. -/
theorem indexdb_sync_default_is_two_cores_plus_one (cores : Nat) :
    indexdb_sync_concurrency cores none = 2 * cores + 1 := by
  simp [indexdb_sync_concurrency, indexdb_sync_default_concurrency, Nat.mul_comm]

/-- C9: `AliasedGroup.get_command` resolves prefixes deterministically: an
exact match is returned as such; otherwise a unique prefix match is returned;
no prefix match yields `None`; two or more prefix matches fail the invocation
rather than choosing one. -/
theorem get_command_prefix_resolution (registered : List String) (name : String) :
    (name ∈ registered → get_command registered name = .found name) ∧
    (name ∉ registered →
      (registered.filter (fun x => pyStartsWith x name) = [] →
        get_command registered name = .notFound) ∧
      (∀ x, registered.filter (fun x => pyStartsWith x name) = [x] →
        get_command registered name = .found x) ∧
      (2 ≤ (registered.filter (fun x => pyStartsWith x name)).length →
        get_command registered name =
          .ambiguous (registered.filter (fun x => pyStartsWith x name)))) := by
  refine ⟨fun h => by simp [get_command, h], fun h => ⟨?_, ?_, ?_⟩⟩
  · intro hf
    simp [get_command, h, hf]
  · intro x hf
    simp [get_command, h, hf]
  · intro hlen
    unfold get_command
    simp only [h, if_false, if_neg]
    · match hm : registered.filter (fun x => pyStartsWith x name) with
      | [] => rw [hm] at hlen; simp at hlen
      | [x] => rw [hm] at hlen; simp at hlen
      | a :: b :: rest => rfl

/-- Witness for C9 on the actual command set of the CLI. -/
theorem get_command_prefix_resolution_witness :
    get_command ["generate", "check", "search", "indexdb"] "check" = .found "check" ∧
    get_command ["generate", "check", "search", "indexdb"] "g" = .found "generate" ∧
    get_command ["generate", "check", "search", "indexdb"] "foo" = .notFound ∧
    get_command ["generate", "check", "search", "indexdb"] "" =
      .ambiguous ["generate", "check", "search", "indexdb"] := by
  refine ⟨?_, ?_, ?_, ?_⟩
  · exact (get_command_prefix_resolution ["generate", "check", "search", "indexdb"] "check").1
      (by decide)
  · exact ((get_command_prefix_resolution ["generate", "check", "search", "indexdb"] "g").2
      (by decide)).2.1 "generate" (by decide)
  · exact ((get_command_prefix_resolution ["generate", "check", "search", "indexdb"] "foo").2
      (by decide)).1 (by decide)
  · exact ((get_command_prefix_resolution ["generate", "check", "search", "indexdb"] "").2
      (by decide)).2.2 (by decide)

/-- C1 (refuted by the code): the callback's value processor never returns an
answer and never raises `BadParameter`; the misspelled `input.sttrip()` raises
`AttributeError` on every input, for every candidate list. -/
theorem value_proc_always_attribute_error (choices : List String) (input : String) :
    value_proc choices input = .attributeError "str" "sttrip" := by
  simp [value_proc, strZeroArgMethod]

end Pigar
